import Mathlib

/-!
Verification of the clewdr request-orchestration core.

This file gives a shallow embedding, in Lean 4, of the parts of the clewdr
sources relevant to the frozen claims:

- `src/lib/text.rs` : message merging (`merge_messages`), padding generation
  (`generate_padding`), system merging;
- `src/lib/completion.rs` : the retry/renewal decider inputs (`same_prompts`,
  `should_renew`), request sanitization (`sanitize_client_request`), and the
  in-prompt `stopSet` / `stopRevoke` marker extraction;
- `src/lib/config.rs` : the `Cookie` credential type and its normalizing
  parse, validation and display.

Rust strings are modelled as Lean `String` (a wrapper around `List Char`;
UTF-8 byte-wise ordering on Rust strings agrees with code-point ordering,
which is the `String` order used here).  Randomness (`rand::rng`) is
modelled by an explicit stream of numeric choices, and each
`random_range(lo..hi)` call is modelled as `lo + r % (hi - lo)`, which
produces exactly the values the source can produce.  Fallible operations
return `Option`.
-/

set_option maxHeartbeats 1000000

namespace Clewdr

/-! ## String helpers

Direct translations of the Rust standard-library string operations used by
the sources: `str::trim`, `[&str]::join`, `char::is_ascii_alphanumeric`. -/

/-- Translation of Rust `str::trim`: drop whitespace from both ends.
Rust trims Unicode `White_Space`; this model uses `Char.isWhitespace`
(space, tab, carriage return, newline), which covers every whitespace
character the claims exercise. -/
def trimStr (s : String) : String :=
  ⟨((s.data.dropWhile Char.isWhitespace).reverse.dropWhile Char.isWhitespace).reverse⟩

/-- Translation of Rust `[&str]::join(sep)`: concatenate with `sep` between
consecutive elements. -/
def joinSep (sep : String) : List String → String
  | [] => ""
  | [t] => t
  | t :: u :: rest => t ++ sep ++ joinSep sep (u :: rest)

/-- Rust `char::is_ascii_alphanumeric`. -/
def isAsciiAlphanum (c : Char) : Bool :=
  ('0' ≤ c && c ≤ '9') || ('A' ≤ c && c ≤ 'Z') || ('a' ≤ c && c ≤ 'z')

namespace Text

/-! ## `src/lib/text.rs` : message merging -/

/-- `types::message::ImageSource`, opaque to `merge_messages`; modelled as an
identifier string. -/
abbrev ImageSource := String

/-- `types::message::Role`: the match in `merge_messages` covers exactly
`User` and `Assistant`. -/
inductive Role where
  | user
  | assistant
deriving DecidableEq, Repr

/-- `types::message::ContentBlock`: the arms matched by `merge_messages`;
`other` stands for every variant hitting the `_ => None` arm. -/
inductive ContentBlock where
  | text (text : String)
  | image (source : ImageSource)
  | other
deriving DecidableEq

/-- `types::message::MessageContent`. -/
inductive MessageContent where
  | blocks (content : List ContentBlock)
  | text (content : String)
deriving DecidableEq

/-- `types::message::Message` as consumed by `merge_messages`. -/
structure Message where
  role : Role
  content : MessageContent
deriving DecidableEq

/-- `text.rs` `Merged`: flattened paste text, prompt polyfill, extracted
images. -/
structure Merged where
  paste : String
  prompt : String
  images : List ImageSource
deriving DecidableEq

/-- `config::PromptPolyfill`.  Modelled from the spec: the enum itself is not
in `src/` (only its use sites in `text.rs` are); per §4.2 step 5 of the spec
the polyfill is "either a fixed configured string, or a freshly generated
padding block", matching the two use sites `CustomPrompt(p) => p` and
`PadTxt(_) => self.generate_padding()`. -/
inductive PromptPolyfill where
  | CustomPrompt (p : String)
  | PadTxt (len : Nat)
deriving DecidableEq

/-- The configuration fields read by `merge_messages`. -/
structure MergeConfig where
  custom_h : Option String
  custom_a : Option String
  user_real_roles : Bool
  prompt_polyfill : PromptPolyfill

/-- The inner `map_while` over a message's content blocks: text blocks are
collected (trimmed), an image block pushes its source to the image list and
then — because `map_while` stops at the first `None` — terminates the scan,
as does any other block variant. -/
def flattenBlocks : List ContentBlock → List String × List ImageSource
  | [] => ([], [])
  | .text t :: rest =>
      let r := flattenBlocks rest
      (trimStr t :: r.1, r.2)
  | .image s :: _ => ([], [s])
  | .other :: _ => ([], [])

/-- Flattening of one message (the body of the outer `map_while` closure):
returns the `(role, text)` chunk (or `none` when the flattened text is
empty) together with the images pushed while scanning this message. -/
def flattenOne (m : Message) : Option (Role × String) × List ImageSource :=
  match m.content with
  | .blocks content =>
      let r := flattenBlocks content
      let b := joinSep "\n" r.1
      (if b.data.isEmpty then none else some (m.role, b), r.2)
  | .text content =>
      let c := trimStr content
      (if c.data.isEmpty then none else some (m.role, c), [])

/-- The outer `map_while` over the message list: each message is flattened in
turn; the first message whose flattened text is empty stops the whole
iteration (`map_while` semantics).  Images pushed before the stop are kept. -/
def flattenMessages : List Message → List (Role × String) × List ImageSource
  | [] => ([], [])
  | m :: rest =>
      match flattenOne m with
      | (none, is) => ([], is)
      | (some rc, is) =>
          let r := flattenMessages rest
          (rc :: r.1, is ++ r.2)

/-- `Itertools::chunk_by` on the role followed by joining each group's texts
with a newline. -/
def chunkByRole : List (Role × String) → List (Role × String)
  | [] => []
  | (r, t) :: rest =>
      match chunkByRole rest with
      | [] => [(r, t)]
      | (r2, t2) :: tail =>
          if r = r2 then (r, t ++ "\n" ++ t2) :: tail
          else (r, t) :: (r2, t2) :: tail

/-- The role label written before a chunk (`"{h}: "` / `"{a}: "`). -/
def rolePrefixOf (h a : String) : Role → String
  | .user => h ++ ": "
  | .assistant => a ++ ": "

/-- The `for (role, text) in msgs` rendering loop: every chunk handed to it
is preceded by the line-break separator and its role label. -/
def renderChunks (lineBreaks h a : String) (chunks : List (Role × String)) : String :=
  chunks.foldl (fun w rc => w ++ lineBreaks ++ rolePrefixOf h a rc.1 ++ rc.2) ""

/-- `AppState::merge_messages` from `text.rs`.  `padding` stands for the
(random) output of `generate_padding`, passed in explicitly to keep the
function pure. -/
def mergeMessages (cfg : MergeConfig) (padding : String) (msgs : List Message)
    (system : String) : Option Merged :=
  if msgs.isEmpty then none else
  let h := cfg.custom_h.getD "Human"
  let a := cfg.custom_a.getD "Assistant"
  let lineBreaks := if cfg.user_real_roles then "\n\n\x08" else "\n\n"
  let sys := trimStr system
  let fm := flattenMessages msgs
  let chunks := chunkByRole fm.1
  let polyfill :=
    match cfg.prompt_polyfill with
    | .CustomPrompt p => p
    | .PadTxt _ => padding
  if sys.data.isEmpty then
    match chunks with
    | [] => none
    | first :: rest =>
        some ⟨first.2 ++ renderChunks lineBreaks h a rest, polyfill, fm.2⟩
  else
    some ⟨sys ++ renderChunks lineBreaks h a chunks, polyfill, fm.2⟩

/-- The `map_while` over the system blocks' `"text"` fields (a block whose
`"text"` field is not a string is modelled by `none`, and stops the scan). -/
def collectSystemTexts : List (Option String) → List String
  | [] => []
  | none :: _ => []
  | some t :: rest => trimStr t :: collectSystemTexts rest

/-- `merge_system` from `text.rs`: a plain-string system value is used
verbatim; an array concatenates the trimmed `"text"` fields — again through
`map_while`, so the scan stops at the first block without a string `"text"`
field. -/
def mergeSystem : Option String ⊕ List (Option String) → String
  | .inl (some s) => s
  | .inl none => ""
  | .inr arr => joinSep "\n" (collectSystemTexts arr)

/-- A default configuration used for concrete evaluations: no custom labels,
no real-roles mode, a fixed custom prompt polyfill. -/
def defaultMergeConfig : MergeConfig := ⟨none, none, false, .CustomPrompt "P"⟩

/-! ## `src/lib/text.rs` : padding generation

`generate_padding` draws random slices from the padding-token corpus until
more than 4000 tokens have been pushed.  The random number generator is
modelled by a stream `rand : Nat → Nat × Nat × Nat` of per-iteration
choices; `random_range(lo..hi)` applied to a choice `r` is modelled as
`lo + r % (hi - lo)`, which ranges over exactly `[lo, hi)`. -/

/-- One `loop` body plus all following iterations of `generate_padding`:
pick a slice length in `[8,64)` and a start position in
`[0, tokens.len() - slice_len)`, append the slice joined by spaces plus a
newline (and, with the modelled 5% choice, an extra blank line), and stop
once the cumulative pushed token count exceeds 4000. -/
def padLoop (tokens : List String) (rand : Nat → Nat × Nat × Nat)
    (n : Nat) (pushed : Nat) : String :=
  let r := rand n
  let slice_len := 8 + r.1 % 56
  let slice_start := r.2.1 % (tokens.length - slice_len)
  let slice := (tokens.drop slice_start).take slice_len
  let chunk := joinSep " " slice ++ "\n" ++ (if r.2.2 % 100 < 5 then "\n" else "")
  if 4000 < pushed + slice_len then chunk
  else chunk ++ padLoop tokens rand (n + 1) (pushed + slice_len)
termination_by 4001 - pushed
decreasing_by simp_wf; omega

/-- `AppState::generate_padding`: the `assert!(tokens.len() >= 4096)` is
modelled by returning `none` when the corpus is too small. -/
def generate_padding (tokens : List String) (rand : Nat → Nat × Nat × Nat) :
    Option String :=
  if 4096 ≤ tokens.length then some (padLoop tokens rand 0 0) else none

/-- Accumulator-flushing helper for `wordsAux`. -/
def flushAcc (acc : List Char) : List (List Char) :=
  if acc = [] then [] else [acc.reverse]

/-- Split a character list into maximal whitespace-free words (the
accumulator holds the current word reversed). -/
def wordsAux : List Char → List Char → List (List Char)
  | [], acc => flushAcc acc
  | c :: rest, acc =>
      if c.isWhitespace then flushAcc acc ++ wordsAux rest []
      else wordsAux rest (c :: acc)

/-- The whitespace-delimited tokens of a string. -/
def wordsOf (s : String) : List String :=
  (wordsAux s.data []).map fun l => ⟨l⟩

end Text

namespace Completion

/-! ## `src/lib/completion.rs` : decider, sanitizer, stop markers -/

/-- `completion.rs` `Message`: role and content are plain strings, plus the
optional per-turn directive flags.  `Ord` is derived in the source, i.e.
lexicographic in field declaration order. -/
structure Message where
  role : String
  content : String
  customname : Option Bool := none
  name : Option String := none
  strip : Option Bool := none
  jailbreak : Option Bool := none
  main : Option Bool := none
  discard : Option Bool := none
  merged : Option Bool := none
  personality : Option Bool := none
  scenario : Option Bool := none
deriving DecidableEq, Repr

/-- Rust `Option<bool>` with its derived order (`None` least). -/
def obBool : Option Bool → WithBot Bool
  | none => ⊥
  | some b => (b : WithBot Bool)

/-- Rust `Option<String>` with its derived order (`None` least). -/
def obStr : Option String → WithBot String
  | none => ⊥
  | some s => (s : WithBot String)

/-- The derived `Ord` of `Message` as a lexicographic key: fields in
declaration order, strings by code-point order (equal to Rust's byte-wise
order), options with `None` least, booleans with `false < true`. -/
abbrev MsgKey :=
  String ×ₗ (String ×ₗ (WithBot Bool ×ₗ (WithBot String ×ₗ (WithBot Bool ×ₗ
    (WithBot Bool ×ₗ (WithBot Bool ×ₗ (WithBot Bool ×ₗ (WithBot Bool ×ₗ
    (WithBot Bool ×ₗ WithBot Bool)))))))))

def Message.key (m : Message) : MsgKey :=
  toLex (m.role, toLex (m.content, toLex (obBool m.customname, toLex (obStr m.name,
    toLex (obBool m.strip, toLex (obBool m.jailbreak, toLex (obBool m.main,
    toLex (obBool m.discard, toLex (obBool m.merged,
    toLex (obBool m.personality, obBool m.scenario))))))))))

/-- The derived `Message: Ord` comparison, as the boolean `≤` used by
`Vec::sort`. -/
def msgLE (a b : Message) : Bool := decide (Message.key a ≤ Message.key b)

/-- `Vec::sort` on messages (a stable sort by the derived order). -/
def sortMessages (l : List Message) : List Message := l.mergeSort msgLE

/-- The `same_prompts` block of `try_completion`: filter out `"system"`
turns from both lists, sort both, compare. -/
def same_prompts (cur prev : List Message) : Bool :=
  decide (sortMessages (cur.filter fun m => m.role != "system") =
          sortMessages (prev.filter fun m => m.role != "system"))

/-- `PromptsGroup::find`'s `first_system`: first message with role
`"system"` whose content is not the `"[Start a new chat]"` sentinel. -/
def firstSystem (l : List Message) : Option Message :=
  l.find? fun m => m.role == "system" && m.content != "[Start a new chat]"

/-- `PromptsGroup::find`'s `first_user`. -/
def firstUser (l : List Message) : Option Message :=
  l.find? fun m => m.role == "user"

/-- The `same_char_diff_chat` condition of `try_completion`. -/
def same_char_diff_chat (cur prev : List Message) : Bool :=
  !same_prompts cur prev &&
  decide ((firstSystem cur).map Message.content = (firstSystem prev).map Message.content) &&
  decide ((firstUser cur).map Message.content = (firstUser prev).map Message.content)

/-- The `should_renew` decision of `try_completion`, as a pure function of
the configured always-renew flag, the current conversation uuid, the
previous-turn-impersonated flag, and the current/previous message lists. -/
def should_renew (renew_always : Bool) (conv_uuid : Option String)
    (prev_impersonated : Bool) (cur prev : List Message) : Bool :=
  renew_always || conv_uuid.isNone || prev_impersonated ||
    (!renew_always && same_prompts cur prev) || same_char_diff_chat cur prev

/-- `completion.rs` `ClientRequestInfo`.  The `f64` fields are modelled as
rationals: `f64::clamp` uses only order comparisons, which on (non-NaN)
floats agree with the order of the represented values. -/
structure ClientRequestInfo where
  temperature : Option ℚ
  messages : List Message
  model : String
  stream : Bool
  max_tokens : Option Int
  stop : Option (List String)
  top_p : Option ℚ
  top_k : Option Int

/-- Rust `f64::clamp(0.1, 1.0)`: below the interval gives the lower bound,
above gives the upper bound, otherwise the value itself. -/
def clampTemp (t : ℚ) : ℚ :=
  if t < 1/10 then 1/10 else if 1 < t then 1 else t

/-- `ClientRequestInfo::sanitize_client_request`: clamp the temperature when
present, leave everything else as is. -/
def sanitize_client_request (p : ClientRequestInfo) : ClientRequestInfo :=
  { p with temperature := p.temperature.map clampTemp }

/-! ### Stop-sequence markers

`try_completion` scans the assembled prompt with the regex
`<\|stopSet *(\[.*?\]) *\|>` (and the same with `stopRevoke`), takes the
SECOND match (`find_iter(..).nth(1)`), and feeds the matched text to
`serde_json::from_str::<Vec<String>>`.  The scanner below implements the
leftmost, non-overlapping match semantics of that fixed pattern: after the
literal `<|name`, a run of spaces, then `[`, then — lazily, with
backtracking over `]` candidates and never across a newline (`.` does not
match `\n`) — a `]` followed by a run of spaces and the literal `|>`.
`find_iter` yields the FULL matched text, not the capture group; the source
passes exactly that full text to the JSON parser. -/

/-- After a candidate `]`: a run of spaces then the literal `|>`; returns
the consumed characters and the remaining input. -/
def markerTail (l : List Char) : Option (List Char × List Char) :=
  match l.dropWhile (· == ' ') with
  | '|' :: '>' :: rest => some (l.takeWhile (· == ' ') ++ ['|', '>'], rest)
  | _ => none

/-- Lazy scan for a closing `]` whose tail matches, mirroring `.*?\]` with
backtracking: at each `]` try the tail, otherwise keep scanning; `\n` can
never be crossed.  Returns the matched characters from the current point
(including the `]` and tail) and the remaining input. -/
def markerBody (acc : List Char) : List Char → Option (List Char × List Char)
  | [] => none
  | c :: rest =>
      if c = '\n' then none
      else if c = ']' then
        match markerTail rest with
        | some (tl, r4) => some (acc ++ [']'] ++ tl, r4)
        | none => markerBody (acc ++ [c]) rest
      else markerBody (acc ++ [c]) rest

/-- Try to match the whole marker pattern at the start of `l`; on success
return the full matched text and the rest of the input. -/
def tryMarkerAt (mname : List Char) (l : List Char) : Option (List Char × List Char) :=
  if ('<' :: '|' :: mname).isPrefixOf l then
    let r0 := l.drop (mname.length + 2)
    match r0.dropWhile (· == ' ') with
    | '[' :: r2 =>
        match markerBody [] r2 with
        | some (body, rest) =>
            some ('<' :: '|' :: mname ++ r0.takeWhile (· == ' ') ++ '[' :: body, rest)
        | none => none
    | _ => none
  else none

/-- `Regex::find_iter` for the marker pattern: leftmost, non-overlapping
matches, each reported as its full matched text.  `fuel` bounds the number
of scan steps; a reported match always consumes at least one input
character (theorem `tryMarkerAt_length` below), so starting with fuel equal
to the input length never exhausts the fuel before the input
(theorem `findMarkersAux_fuel_indep` below). -/
def findMarkersAux (mname : List Char) : Nat → List Char → List (List Char)
  | 0, _ => []
  | _, [] => []
  | fuel + 1, c :: rest =>
      match tryMarkerAt mname (c :: rest) with
      | some (m, r) => m :: findMarkersAux mname fuel r
      | none => findMarkersAux mname fuel rest

def findMarkers (mname : List Char) (l : List Char) : List (List Char) :=
  findMarkersAux mname l.length l

/-! ### A `serde_json::from_str::<Vec<String>>` model -/

/-- The JSON whitespace characters. -/
def jsonWs (c : Char) : Bool := c == ' ' || c == '\t' || c == '\n' || c == '\r'

/-- JSON two-character escapes. -/
def escChar (e : Char) : Option Char :=
  if e = '"' then some '"' else if e = '\\' then some '\\'
  else if e = '/' then some '/' else if e = 'b' then some (Char.ofNat 8)
  else if e = 'f' then some (Char.ofNat 12) else if e = 'n' then some '\n'
  else if e = 'r' then some '\r' else if e = 't' then some '\t' else none

/-- The value of one hexadecimal digit, by its code point: `0`-`9` are
48-57, `a`-`f` are 97-102, `A`-`F` are 65-70. -/
def hexDigitVal (c : Char) : Option Nat :=
  if 48 ≤ c.toNat && c.toNat ≤ 57 then some (c.toNat - 48)
  else if 97 ≤ c.toNat && c.toNat ≤ 102 then some (c.toNat - 87)
  else if 65 ≤ c.toNat && c.toNat ≤ 70 then some (c.toNat - 55)
  else none

/-- Parse a JSON string body after its opening quote; returns the decoded
characters and the input after the closing quote. -/
def parseStringBody : List Char → Option (List Char × List Char)
  | [] => none
  | '"' :: r => some ([], r)
  | '\\' :: 'u' :: r =>
      match r with
      | h1 :: h2 :: h3 :: h4 :: r2 => do
          let vs ← [h1, h2, h3, h4].mapM hexDigitVal
          let rest ← parseStringBody r2
          some (Char.ofNat (vs.foldl (fun a d => a * 16 + d) 0) :: rest.1, rest.2)
      | _ => none
  | '\\' :: e :: r => do
      let c ← escChar e
      let rest ← parseStringBody r
      some (c :: rest.1, rest.2)
  | ['\\'] => none
  | c :: r => do
      let rest ← parseStringBody r
      some (c :: rest.1, rest.2)

/-- Parse the remaining `, "elem"` pairs of a JSON array of strings, up to
the closing `]`.  `fuel` bounds the recursion; each step consumes input, so
an initial fuel of the input length is always sufficient. -/
def parseJsonMore : Nat → List String → List Char → Option (List String × List Char)
  | 0, _, _ => none
  | fuel + 1, acc, l =>
      match l.dropWhile jsonWs with
      | ']' :: r => some (acc, r)
      | ',' :: r =>
          match r.dropWhile jsonWs with
          | '"' :: r2 =>
              match parseStringBody r2 with
              | some (s, r3) => parseJsonMore fuel (acc ++ [⟨s⟩]) r3
              | none => none
          | _ => none
      | _ => none

/-- Parse a JSON array of strings; returns the strings and the remaining
input. -/
def parseJsonArray (l : List Char) : Option (List String × List Char) :=
  match l.dropWhile jsonWs with
  | '[' :: r =>
      match r.dropWhile jsonWs with
      | ']' :: r2 => some ([], r2)
      | '"' :: r2 =>
          match parseStringBody r2 with
          | some (s, r3) => parseJsonMore (r3.length + 1) [⟨s⟩] r3
          | none => none
      | _ => none
  | _ => none

/-- `serde_json::from_str::<Vec<String>>`: a full-input parse of a JSON
array of strings (only trailing whitespace may remain). -/
def parseJsonStringList (s : String) : Option (List String) :=
  match parseJsonArray s.data with
  | some (xs, rest) => if (rest.dropWhile jsonWs).isEmpty then some xs else none
  | none => none

/-- Rust `str::eq_ignore_ascii_case`. -/
def asciiLower (c : Char) : Char :=
  if 'A' ≤ c && c ≤ 'Z' then Char.ofNat (c.toNat + 32) else c

def eqIgnoreAsciiCase (a b : String) : Bool :=
  decide (a.data.map asciiLower = b.data.map asciiLower)

/-- The stop-sequence computation of `try_completion` (lines 342-364): the
second `stopSet` / `stopRevoke` marker match (`nth(1)`) is JSON-parsed —
note: the FULL match text, as in the source — defaulting to `[]`; the final
list is stop-set entries, then the client's stop entries, then the two fixed
defaults, filtered to drop entries that are blank after trimming or that
match a stop-revoke entry ASCII-case-insensitively. -/
def stopSequences (prompt : String) (client_stop : Option (List String)) : List String :=
  let stop_set :=
    (((findMarkers "stopSet".data prompt.data).get? 1).bind
      fun m => parseJsonStringList ⟨m⟩).getD []
  let stop_revoke :=
    (((findMarkers "stopRevoke".data prompt.data).get? 1).bind
      fun m => parseJsonStringList ⟨m⟩).getD []
  (stop_set ++ client_stop.getD [] ++ ["\n\nHuman:", "\n\nAssistant:"]).filter
    fun s => !(trimStr s).data.isEmpty &&
      !stop_revoke.any fun r => eqIgnoreAsciiCase r (trimStr s)

end Completion

namespace Config

/-! ## `src/lib/config.rs` : the Cookie credential -/

/-- `config.rs` `Cookie`: a wrapper around the normalized session-token
string. -/
structure Cookie where
  inner : String
deriving DecidableEq, Repr

/-- The character class `[0-9A-Za-z_-]` of the validation regex. -/
def cookieChar (c : Char) : Bool :=
  isAsciiAlphanum c || c == '_' || c == '-'

/-- The literal head `sk-ant-sid01-` of the validation regex. -/
def cookieHead : List Char := "sk-ant-sid01-".data

/-- Whether the validation pattern
`sk-ant-sid01-[0-9A-Za-z_-]{86}-[0-9A-Za-z_-]{6}AA` matches at the start of
`l` (the pattern has fixed length 108, so matching at a position is
deterministic). -/
def patternAt (l : List Char) : Bool :=
  cookieHead.isPrefixOf l &&
  (let r := l.drop 13
   ((r.take 86).length == 86 && (r.take 86).all cookieChar) &&
   (match r.drop 86 with
    | '-' :: r2 =>
        ((r2.take 6).length == 6 && (r2.take 6).all cookieChar) &&
        (match r2.drop 6 with
         | 'A' :: 'A' :: _ => true
         | _ => false)
    | _ => false))

/-- `Cookie::validate`: `Regex::is_match` is an UNANCHORED search — it
reports whether the pattern matches anywhere in the string. -/
def validate (c : Cookie) : Bool :=
  c.inner.data.tails.any patternAt

/-- The character filter of `From<&str> for Cookie`: keep ASCII
alphanumerics, `=`, `_` and `-`. -/
def goodChar (c : Char) : Bool :=
  isAsciiAlphanum c || c == '=' || c == '_' || c == '-'

/-- The characters of the `sessionKey=` marker. -/
def sessionKeyChars : List Char := "sessionKey=".data

/-- Rust `str::trim_start_matches("sessionKey=")`: repeatedly strip the
prefix while it is present.  `fuel` bounds the iteration; each strip
removes eleven characters, so fuel equal to the input length always
suffices. -/
def stripSessionKeyAux : Nat → List Char → List Char
  | 0, l => l
  | fuel + 1, l =>
      if sessionKeyChars.isPrefixOf l then stripSessionKeyAux fuel (l.drop 11) else l

def stripSessionKey (l : List Char) : List Char :=
  stripSessionKeyAux l.length l

/-- Rust `str::split_once(c)` restricted to the part after the separator:
`some` of the suffix after the FIRST occurrence of `t`, or `none` when `t`
does not occur. -/
def suffixAfterFirst (t : Char) : List Char → Option (List Char)
  | [] => none
  | c :: rest => if c = t then some rest else suffixAfterFirst t rest

/-- The filtering-and-stripping tail of the cookie parse. -/
def normalizeChars (l : List Char) : List Char :=
  stripSessionKey (l.filter goodChar)

/-- `From<&str> for Cookie`: keep the suffix after the first `@` (for clewd
compatibility), filter to the allowed characters, strip any leading
`sessionKey=` markers.  (The source only warns on an invalid format; the
value is retained either way.) -/
def cookieFrom (original : String) : Cookie :=
  ⟨⟨normalizeChars ((suffixAfterFirst '@' original.data).getD original.data)⟩⟩

/-- `Display for Cookie`: `sessionKey=<inner>`. -/
def cookieDisplay (c : Cookie) : String :=
  "sessionKey=" ++ c.inner

/-- The claim's reading of `validate`, modelled from the spec's words: the
WHOLE normalized string is the pattern, with no extra characters before or
after (fixed pattern length 108). -/
def exactPattern (l : List Char) : Bool :=
  patternAt l && (l.length == 108)

/-- A concrete string matching the validation pattern exactly. -/
def exact108 : List Char :=
  cookieHead ++ List.replicate 86 'A' ++ '-' :: List.replicate 6 'A' ++ ['A', 'A']

end Config

/-! ## Concrete inputs used by witnesses and counterexamples -/

/-- A prompt carrying two `stopSet` markers, the second naming `"Bar"`. -/
def promptTwoStopSets : String :=
  "<|stopSet [\"Foo\"]|> middle <|stopSet [\"Bar\"]|>"

/-- Current message list for the decider witness: one user turn. -/
def deciderCur : List Completion.Message :=
  [{ role := "user", content := "hi" }]

/-- Previous message list for the decider witness: the same user turn plus a
system turn. -/
def deciderPrev : List Completion.Message :=
  [{ role := "system", content := "sys" }, { role := "user", content := "hi" }]

/-- A concrete client request for the sanitizer witness. -/
def sanitizeReq : Completion.ClientRequestInfo :=
  { temperature := some 5, messages := [], model := "claude-3", stream := false,
    max_tokens := none, stop := none, top_p := none, top_k := none }

/-! # Theorems -/

/-! ## General helper lemmas -/

theorem string_data_append (s t : String) : (s ++ t).data = s.data ++ t.data := by
  cases s
  cases t
  rfl

namespace Text

theorem chunkByRole_ne_nil (p : Role × String) (l : List (Role × String)) :
    chunkByRole (p :: l) ≠ [] := by
  obtain ⟨r, t⟩ := p
  simp only [chunkByRole]
  rcases h : chunkByRole l with _ | ⟨⟨r2, t2⟩, tail⟩
  · simp
  · by_cases hr : r = r2 <;> simp [hr]

theorem chunkByRole_eq_nil_iff (l : List (Role × String)) :
    chunkByRole l = [] ↔ l = [] := by
  cases l with
  | nil => simp [chunkByRole]
  | cons p t => simpa using chunkByRole_ne_nil p t

end Text

/-! ## Claims C1, C2, C9 : message merging -/

/-- C1: the claim says a message whose flattened text is empty is dropped
while all subsequent messages are still processed and emitted.  In the code
the outer `map_while` STOPS at the first empty-flattened message, so the
messages after it are dropped as well: on `[user "a", user "", user "b"]`
the paste is `"a"`, whereas on `[user "a", user "b"]` (the claimed
behaviour: empty message dropped, rest emitted) it is `"a\nb"`. -/
theorem C1_empty_message_truncates :
    Text.mergeMessages Text.defaultMergeConfig ""
      [⟨.user, .text "a"⟩, ⟨.user, .text ""⟩, ⟨.user, .text "b"⟩] "" =
      some ⟨"a", "P", []⟩ ∧
    (Text.flattenMessages [⟨.user, .text "a"⟩, ⟨.user, .text ""⟩, ⟨.user, .text "b"⟩]).1 =
      [(.user, "a")] ∧
    Text.mergeMessages Text.defaultMergeConfig ""
      [⟨.user, .text "a"⟩, ⟨.user, .text "b"⟩] "" = some ⟨"a\nb", "P", []⟩ := by
  decide

/-- C2: the claim says all text blocks of a block-list message are
concatenated and ALL image sources are collected wherever they occur.  In
the code the inner `map_while` stops at the first non-text block, so on
`[Text "a", Image "img1", Text "b", Image "img2"]` only `"a"` is kept and
only `"img1"` is collected. -/
theorem C2_blocks_truncated_at_first_image :
    Text.flattenBlocks [.text "a", .image "img1", .text "b", .image "img2"] =
      (["a"], ["img1"]) ∧
    Text.mergeMessages Text.defaultMergeConfig ""
      [⟨.user, .blocks [.text "a", .image "img1", .text "b", .image "img2"]⟩] "" =
      some ⟨"a", "P", ["img1"]⟩ := by
  decide

/-- C9 counterexample: the claim says `merge_messages` returns none whenever
zero flattened turns remain, even with a non-empty merged system text.  On
`msgs = [user ""]` (zero flattened turns) and `system = "sys"` the code
returns `some` (the paste is just the system text). -/
theorem C9_counterexample :
    (Text.flattenMessages [⟨.user, .text ""⟩]).1 = [] ∧
    Text.mergeMessages Text.defaultMergeConfig "" [⟨.user, .text ""⟩] "sys" =
      some ⟨"sys", "P", []⟩ := by
  decide

/-- C9 (amended): `merge_messages` returns none exactly when the message
list is empty, or when the trimmed system text is empty AND zero flattened
turns remain (with flattening as the code performs it, stopping at the
first empty-flattened message). -/
theorem C9_merge_none_iff (cfg : Text.MergeConfig) (padding : String)
    (msgs : List Text.Message) (system : String) :
    Text.mergeMessages cfg padding msgs system = none ↔
      msgs = [] ∨ ((trimStr system).data = [] ∧ (Text.flattenMessages msgs).1 = []) := by
  unfold Text.mergeMessages
  cases msgs with
  | nil => simp
  | cons m rest =>
      simp only [List.isEmpty_cons, Bool.false_eq_true, if_false, reduceCtorEq, false_or]
      by_cases hs : (trimStr system).data.isEmpty
      · simp only [hs, if_true]
        rcases hch : Text.chunkByRole (Text.flattenMessages (m :: rest)).1 with _ | ⟨first, cr⟩
        · simp only [List.isEmpty_iff] at hs
          simp [hs, (Text.chunkByRole_eq_nil_iff _).mp hch]
        · have hne : (Text.flattenMessages (m :: rest)).1 ≠ [] := by
            intro hnil
            rw [hnil] at hch
            simp [Text.chunkByRole] at hch
          simp [hne]
      · simp only [hs, if_false]
        simp only [List.isEmpty_iff] at hs
        simp [hs]

/-- Witness for C9 (amended) at a concrete input: the empty message list
with a non-empty system text merges to none. -/
theorem C9_witness :
    Text.mergeMessages Text.defaultMergeConfig "" [] "x" = none :=
  (C9_merge_none_iff Text.defaultMergeConfig "" [] "x").mpr (Or.inl rfl)

/-! ## Claims C5, C6, C7 : the Cookie credential -/

namespace Config

theorem suffixAfterFirst_append {t : Char} {pre : List Char} (post : List Char)
    (h : t ∉ pre) : suffixAfterFirst t (pre ++ t :: post) = some post := by
  induction pre with
  | nil => simp [suffixAfterFirst]
  | cons c cs ih =>
      simp only [List.cons_append, suffixAfterFirst]
      rw [if_neg (fun hc : c = t => h (hc ▸ List.mem_cons_self c cs))]
      exact ih fun hm => h (List.mem_cons_of_mem c hm)

theorem suffixAfterFirst_eq_none {t : Char} {l : List Char} (h : t ∉ l) :
    suffixAfterFirst t l = none := by
  induction l with
  | nil => rfl
  | cons c cs ih =>
      simp only [suffixAfterFirst]
      rw [if_neg (fun hc : c = t => h (hc ▸ List.mem_cons_self c cs))]
      exact ih fun hm => h (List.mem_cons_of_mem c hm)

theorem stripSessionKeyAux_mem {fuel : Nat} {l : List Char} {c : Char}
    (h : c ∈ stripSessionKeyAux fuel l) : c ∈ l := by
  induction fuel generalizing l with
  | zero => exact h
  | succ fuel ih =>
      unfold stripSessionKeyAux at h
      by_cases hp : sessionKeyChars.isPrefixOf l
      · rw [if_pos hp] at h
        exact List.mem_of_mem_drop (ih h)
      · rwa [if_neg hp] at h

theorem stripSessionKeyAux_no_marker {fuel : Nat} {l : List Char}
    (h : l.length ≤ fuel) :
    sessionKeyChars.isPrefixOf (stripSessionKeyAux fuel l) = false := by
  induction fuel generalizing l with
  | zero =>
      have : l = [] := List.length_eq_zero.mp (Nat.le_zero.mp h)
      subst this
      rfl
  | succ fuel ih =>
      unfold stripSessionKeyAux
      by_cases hp : sessionKeyChars.isPrefixOf l
      · rw [if_pos hp]
        have hpre : sessionKeyChars <+: l := List.isPrefixOf_iff_prefix.mp hp
        have h11 : (11 : Nat) ≤ l.length := by
          have := hpre.length_le
          simpa using this
        exact ih (by simp; omega)
      · rw [if_neg hp]
        exact Bool.eq_false_iff.mpr hp

theorem stripSessionKeyAux_of_no_marker (fuel : Nat) {x : List Char}
    (hx : sessionKeyChars.isPrefixOf x = false) :
    stripSessionKeyAux fuel x = x := by
  cases fuel <;> simp [stripSessionKeyAux, hx]

/-- The fuel bound of `stripSessionKeyAux` is irrelevant once it covers the
input length: the fueled strip agrees with the unbounded repeated strip. -/
theorem stripSessionKeyAux_fuel_indep :
    ∀ fuel1 fuel2 l, l.length ≤ fuel1 → l.length ≤ fuel2 →
      stripSessionKeyAux fuel1 l = stripSessionKeyAux fuel2 l := by
  intro fuel1
  induction fuel1 with
  | zero =>
      intro fuel2 l h1 h2
      have : l = [] := List.length_eq_zero.mp (Nat.le_zero.mp h1)
      subst this
      exact (stripSessionKeyAux_of_no_marker fuel2 (by decide)).symm
  | succ fuel1 ih =>
      intro fuel2 l h1 h2
      by_cases hp : sessionKeyChars.isPrefixOf l
      · have h11 : (11 : Nat) ≤ l.length := by
          have := (List.isPrefixOf_iff_prefix.mp hp).length_le
          simpa using this
        cases fuel2 with
        | zero => omega
        | succ fuel2 =>
            show (if sessionKeyChars.isPrefixOf l then
                stripSessionKeyAux fuel1 (l.drop 11) else l) =
              (if sessionKeyChars.isPrefixOf l then
                stripSessionKeyAux fuel2 (l.drop 11) else l)
            rw [if_pos hp, if_pos hp]
            exact ih fuel2 (l.drop 11) (by simp; omega) (by simp; omega)
      · rw [stripSessionKeyAux_of_no_marker _ (Bool.eq_false_iff.mpr hp),
          stripSessionKeyAux_of_no_marker _ (Bool.eq_false_iff.mpr hp)]

theorem stripSessionKey_marker_append {x : List Char}
    (hx : sessionKeyChars.isPrefixOf x = false) :
    ∀ fuel, (sessionKeyChars ++ x).length ≤ fuel →
      stripSessionKeyAux fuel (sessionKeyChars ++ x) = x := by
  intro fuel hf
  cases fuel with
  | zero =>
      exfalso
      simp [sessionKeyChars] at hf
  | succ fuel =>
      unfold stripSessionKeyAux
      rw [if_pos (List.isPrefixOf_iff_prefix.mpr (List.prefix_append _ _))]
      have h11 : sessionKeyChars.length = 11 := by decide
      rw [List.drop_left' h11]
      exact stripSessionKeyAux_of_no_marker fuel hx

theorem cookieFrom_allGood (s : String) :
    ∀ c ∈ (cookieFrom s).inner.data, goodChar c = true := by
  intro c hc
  have h1 : c ∈ ((suffixAfterFirst '@' s.data).getD s.data).filter goodChar :=
    stripSessionKeyAux_mem hc
  exact List.of_mem_filter h1

theorem cookieFrom_no_marker (s : String) :
    sessionKeyChars.isPrefixOf (cookieFrom s).inner.data = false :=
  stripSessionKeyAux_no_marker (Nat.le_refl _)

/-- C6: for every raw input containing an `@`, only the suffix after the
first `@` is retained (the rest of the parse operates on that suffix
alone); for every input, the normalized result contains only ASCII
alphanumeric characters, `=`, `_` and `-`, and never begins with
`sessionKey=`. -/
theorem C6_cookie_normalization (s : String) :
    (∀ pre post : List Char, s.data = pre ++ '@' :: post → '@' ∉ pre →
        (cookieFrom s).inner.data = normalizeChars post) ∧
    (∀ c ∈ (cookieFrom s).inner.data, goodChar c = true) ∧
    sessionKeyChars.isPrefixOf (cookieFrom s).inner.data = false := by
  refine ⟨?_, cookieFrom_allGood s, cookieFrom_no_marker s⟩
  intro pre post hs hpre
  show normalizeChars ((suffixAfterFirst '@' s.data).getD s.data) = normalizeChars post
  rw [hs, suffixAfterFirst_append post hpre]
  rfl

/-- Witness for C6 at the concrete input `"u@sessionKey=ab"`. -/
theorem C6_witness :
    ("u@sessionKey=ab".data = "u".data ++ '@' :: "sessionKey=ab".data ∧
      '@' ∉ "u".data) ∧
    (cookieFrom "u@sessionKey=ab").inner.data =
      normalizeChars "sessionKey=ab".data := by
  refine ⟨⟨by decide, by decide⟩, ?_⟩
  exact (C6_cookie_normalization "u@sessionKey=ab").1 "u".data "sessionKey=ab".data
    (by decide) (by decide)

/-- C7: round-tripping any parsed credential through its display form
(`sessionKey=<inner>`) and the parse again yields the same credential. -/
theorem C7_cookie_roundtrip (s : String) :
    cookieFrom (cookieDisplay (cookieFrom s)) = cookieFrom s := by
  have hgood := cookieFrom_allGood s
  have hmark := cookieFrom_no_marker s
  have hdata : (cookieDisplay (cookieFrom s)).data =
      sessionKeyChars ++ (cookieFrom s).inner.data := by
    show ("sessionKey=" ++ (cookieFrom s).inner).data = _
    rw [string_data_append]
    rfl
  have hat : '@' ∉ (cookieDisplay (cookieFrom s)).data := by
    rw [hdata]
    intro hmem
    rcases List.mem_append.mp hmem with h | h
    · exact absurd h (by decide)
    · have := hgood '@' h
      exact absurd this (by decide)
  have hallgood : ∀ c ∈ (cookieDisplay (cookieFrom s)).data, goodChar c = true := by
    rw [hdata]
    intro c hc
    rcases List.mem_append.mp hc with h | h
    · have hall : ∀ x ∈ sessionKeyChars, goodChar x = true := by decide
      exact hall c h
    · exact hgood c h
  show (⟨⟨normalizeChars _⟩⟩ : Cookie) = cookieFrom s
  rw [suffixAfterFirst_eq_none hat]
  show (⟨⟨normalizeChars (cookieDisplay (cookieFrom s)).data⟩⟩ : Cookie) = cookieFrom s
  unfold normalizeChars
  rw [List.filter_eq_self.mpr hallgood, hdata]
  show (⟨⟨stripSessionKeyAux _ _⟩⟩ : Cookie) = cookieFrom s
  rw [stripSessionKey_marker_append hmark _ (Nat.le_refl _)]

theorem patternAt_iff (t : List Char) :
    patternAt t = true ↔ ∃ a b post : List Char,
      t = cookieHead ++ (a ++ '-' :: (b ++ 'A' :: 'A' :: post)) ∧
      a.length = 86 ∧ a.all cookieChar = true ∧
      b.length = 6 ∧ b.all cookieChar = true := by
  constructor
  · intro h
    unfold patternAt at h
    simp only [Bool.and_eq_true, beq_iff_eq] at h
    obtain ⟨hpre, ⟨hlen86, hall86⟩, hmatch⟩ := h
    obtain ⟨r0, hr0⟩ := List.isPrefixOf_iff_prefix.mp hpre
    have hdrop : t.drop 13 = r0 := by
      rw [← hr0]
      exact List.drop_left' (by decide)
    rw [hdrop] at hlen86 hall86 hmatch
    split at hmatch
    next r2 heq =>
      simp only [Bool.and_eq_true, beq_iff_eq] at hmatch
      obtain ⟨⟨hlen6, hall6⟩, hmatch2⟩ := hmatch
      split at hmatch2
      next post heq2 =>
        refine ⟨r0.take 86, r2.take 6, post, ?_, hlen86, hall86, hlen6, hall6⟩
        rw [← hr0]
        congr 1
        calc r0 = r0.take 86 ++ r0.drop 86 := (List.take_append_drop 86 r0).symm
          _ = r0.take 86 ++ '-' :: r2 := by rw [heq]
          _ = r0.take 86 ++ '-' :: (r2.take 6 ++ r2.drop 6) := by
                rw [List.take_append_drop]
          _ = r0.take 86 ++ '-' :: (r2.take 6 ++ 'A' :: 'A' :: post) := by rw [heq2]
      next => exact absurd hmatch2 (by simp)
    next => exact absurd hmatch (by simp)
  · rintro ⟨a, b, post, ht, ha, hac, hb, hbc⟩
    subst ht
    unfold patternAt
    have hdrop13 : (cookieHead ++ (a ++ '-' :: (b ++ 'A' :: 'A' :: post))).drop 13 =
        a ++ '-' :: (b ++ 'A' :: 'A' :: post) := List.drop_left' (by decide)
    simp only [Bool.and_eq_true, beq_iff_eq, hdrop13]
    refine ⟨List.isPrefixOf_iff_prefix.mpr (List.prefix_append _ _), ⟨?_, ?_⟩, ?_⟩
    · rw [List.take_left' ha, ha]
    · rw [List.take_left' ha]
      exact hac
    · rw [List.drop_left' ha]
      simp only []
      rw [List.take_left' hb, List.drop_left' hb]
      simp [hb, hbc]

/-- C5 counterexample: `validate` is an unanchored search, so it accepts a
string with an extra leading character before an exact pattern occurrence,
contradicting the claim's "no extra characters before or after". -/
theorem C5_counterexample :
    validate ⟨⟨'X' :: exact108⟩⟩ = true ∧ exactPattern ('X' :: exact108) = false := by
  decide

/-- C5 (amended): `validate()` returns true iff the normalized string
CONTAINS a substring matching `sk-ant-sid01-` + 86 pattern characters + `-`
+ 6 pattern characters + `AA` (the regex search is unanchored, so extra
characters before or after are allowed). -/
theorem C5_validate_contains (s : String) :
    validate ⟨s⟩ = true ↔ ∃ pre a b post : List Char,
      s.data = pre ++ (cookieHead ++ (a ++ '-' :: (b ++ 'A' :: 'A' :: post))) ∧
      a.length = 86 ∧ a.all cookieChar = true ∧
      b.length = 6 ∧ b.all cookieChar = true := by
  unfold validate
  rw [List.any_eq_true]
  constructor
  · rintro ⟨t, ht, hp⟩
    have hsuf : t <:+ s.data := (List.mem_tails _ _).mp ht
    obtain ⟨pre, hpre⟩ := hsuf
    obtain ⟨a, b, post, hteq, ha, hac, hb, hbc⟩ := (patternAt_iff t).mp hp
    exact ⟨pre, a, b, post, by rw [← hpre, hteq], ha, hac, hb, hbc⟩
  · rintro ⟨pre, a, b, post, hs, ha, hac, hb, hbc⟩
    refine ⟨cookieHead ++ (a ++ '-' :: (b ++ 'A' :: 'A' :: post)), ?_, ?_⟩
    · exact (List.mem_tails _ _).mpr ⟨pre, hs.symm⟩
    · exact (patternAt_iff _).mpr ⟨a, b, post, rfl, ha, hac, hb, hbc⟩

/-- Witness for C5 at the exact-form string. -/
theorem C5_witness :
    validate ⟨⟨exact108⟩⟩ = true ∧
    ∃ pre a b post : List Char,
      (⟨exact108⟩ : String).data =
        pre ++ (cookieHead ++ (a ++ '-' :: (b ++ 'A' :: 'A' :: post))) ∧
      a.length = 86 ∧ a.all cookieChar = true ∧
      b.length = 6 ∧ b.all cookieChar = true := by
  have hv : validate ⟨⟨exact108⟩⟩ = true := by decide
  exact ⟨hv, (C5_validate_contains ⟨exact108⟩).mp hv⟩

end Config

/-! ## Claim C3 : stopSet markers -/

namespace Completion

theorem markerTail_length {l tl r : List Char} (h : markerTail l = some (tl, r)) :
    r.length < l.length := by
  unfold markerTail at h
  split at h
  next rest' heq =>
    simp only [Option.some.injEq, Prod.mk.injEq] at h
    obtain ⟨-, h2⟩ := h
    subst h2
    have hlen := (List.dropWhile_sublist (l := l) (p := (· == ' '))).length_le
    rw [heq] at hlen
    simp only [List.length_cons] at hlen
    omega
  next => exact absurd h (by simp)

theorem markerBody_length {acc l b r : List Char} (h : markerBody acc l = some (b, r)) :
    r.length < l.length := by
  induction l generalizing acc with
  | nil => exact absurd h (by simp [markerBody])
  | cons c rest ih =>
      unfold markerBody at h
      by_cases hn : c = '\n'
      · rw [if_pos hn] at h
        exact absurd h (by simp)
      · rw [if_neg hn] at h
        by_cases hb : c = ']'
        · rw [if_pos hb] at h
          rcases ht : markerTail rest with _ | ⟨tl, r4⟩ <;> rw [ht] at h <;>
            simp only [] at h
          · exact Nat.lt_succ_of_lt (ih h)
          · simp only [Option.some.injEq, Prod.mk.injEq] at h
            obtain ⟨-, h2⟩ := h
            subst h2
            exact Nat.lt_succ_of_lt (markerTail_length ht)
        · rw [if_neg hb] at h
          exact Nat.lt_succ_of_lt (ih h)

theorem tryMarkerAt_length {mname l m r : List Char}
    (h : tryMarkerAt mname l = some (m, r)) : r.length < l.length := by
  unfold tryMarkerAt at h
  by_cases hp : ('<' :: '|' :: mname).isPrefixOf l
  · rw [if_pos hp] at h
    simp only [] at h
    split at h
    next r2 heq =>
      rcases hb : markerBody [] r2 with _ | ⟨body, rest2⟩ <;> rw [hb] at h
      · exact absurd h (by simp)
      · simp only [Option.some.injEq, Prod.mk.injEq] at h
        obtain ⟨-, h2⟩ := h
        subst h2
        have h1 := markerBody_length hb
        have h2 : r2.length <
            (List.dropWhile (· == ' ') (l.drop (mname.length + 2))).length + 1 := by
          rw [heq]
          simp only [List.length_cons]
          omega
        have h3 : (List.dropWhile (· == ' ') (l.drop (mname.length + 2))).length ≤
            (l.drop (mname.length + 2)).length :=
          (List.dropWhile_sublist (· == ' ')).length_le
        have h4 : (l.drop (mname.length + 2)).length ≤ l.length :=
          (List.drop_sublist (mname.length + 2) l).length_le
        omega
    next => exact absurd h (by simp)
  · rw [if_neg hp] at h
    exact absurd h (by simp)

/-- The fuel bound of `findMarkersAux` is irrelevant once it covers the
input length: the fueled scan agrees with the unbounded regex scan. -/
theorem findMarkersAux_fuel_indep {mname : List Char} :
    ∀ fuel1 fuel2 l, l.length ≤ fuel1 → l.length ≤ fuel2 →
      findMarkersAux mname fuel1 l = findMarkersAux mname fuel2 l := by
  intro fuel1
  induction fuel1 with
  | zero =>
      intro fuel2 l h1 h2
      have : l = [] := List.length_eq_zero.mp (Nat.le_zero.mp h1)
      subst this
      cases fuel2 <;> rfl
  | succ fuel1 ih =>
      intro fuel2 l h1 h2
      cases fuel2 with
      | zero =>
          have : l = [] := List.length_eq_zero.mp (Nat.le_zero.mp h2)
          subst this
          rfl
      | succ fuel2 =>
          cases l with
          | nil => rfl
          | cons c rest =>
              have hunf : ∀ f, findMarkersAux mname (f + 1) (c :: rest) =
                  (match tryMarkerAt mname (c :: rest) with
                   | some (m, r) => m :: findMarkersAux mname f r
                   | none => findMarkersAux mname f rest) := fun f => rfl
              rw [hunf fuel1, hunf fuel2]
              rcases ht : tryMarkerAt mname (c :: rest) with _ | ⟨m, r⟩
              · simp only []
                exact ih fuel2 rest (by simp at h1; omega) (by simp at h2; omega)
              · simp only []
                have hr := tryMarkerAt_length ht
                rw [ih fuel2 r (by simp at h1 hr ⊢; omega) (by simp at h2 hr ⊢; omega)]

theorem tryMarkerAt_head {mname l m r : List Char}
    (h : tryMarkerAt mname l = some (m, r)) : ∃ tl, m = '<' :: tl := by
  unfold tryMarkerAt at h
  by_cases hp : ('<' :: '|' :: mname).isPrefixOf l
  · rw [if_pos hp] at h
    simp only [] at h
    split at h
    next r2 heq =>
      rcases hb : markerBody [] r2 with _ | ⟨body, rest⟩ <;> rw [hb] at h
      · exact absurd h (by simp)
      · simp only [Option.some.injEq, Prod.mk.injEq] at h
        exact ⟨_, h.1.symm⟩
    next => exact absurd h (by simp)
  · rw [if_neg hp] at h
    exact absurd h (by simp)

theorem findMarkersAux_head {mname : List Char} :
    ∀ fuel l m, m ∈ findMarkersAux mname fuel l → ∃ tl, m = '<' :: tl := by
  intro fuel
  induction fuel with
  | zero => intro l m hm; exact absurd hm (by simp [findMarkersAux])
  | succ fuel ih =>
      intro l m hm
      cases l with
      | nil => exact absurd hm (by simp [findMarkersAux])
      | cons c rest =>
          unfold findMarkersAux at hm
          rcases ht : tryMarkerAt mname (c :: rest) with _ | ⟨m2, r⟩ <;> rw [ht] at hm
          · exact ih rest m hm
          · rcases List.mem_cons.mp hm with h | h
            · exact h ▸ tryMarkerAt_head ht
            · exact ih r m h

/-- A found marker match always begins with `<`, which can never start a
JSON document: the `serde_json::from_str::<Vec<String>>` of the FULL match
text therefore always fails. -/
theorem findMarkers_parse_none (mname l : List Char) :
    ∀ m ∈ findMarkers mname l, parseJsonStringList ⟨m⟩ = none := by
  intro m hm
  obtain ⟨tl, htl⟩ := findMarkersAux_head _ _ m hm
  subst htl
  rfl

/-- The stop-set and stop-revoke lists extracted by `try_completion` are
consequently ALWAYS empty, for every prompt: the final stop list is just
the client stops plus the two fixed defaults, filtered for blanks. -/
theorem stopSequences_markers_dead (prompt : String) (cs : Option (List String)) :
    stopSequences prompt cs =
      (cs.getD [] ++ ["\n\nHuman:", "\n\nAssistant:"]).filter
        fun s => !(trimStr s).data.isEmpty := by
  unfold stopSequences
  have hset : (((findMarkers "stopSet".data prompt.data).get? 1).bind
      fun m => parseJsonStringList ⟨m⟩) = none := by
    rcases hg : (findMarkers "stopSet".data prompt.data).get? 1 with _ | m
    · rfl
    · simp only [Option.some_bind]
      exact findMarkers_parse_none _ _ m (List.get?_mem hg)
  have hrevoke : (((findMarkers "stopRevoke".data prompt.data).get? 1).bind
      fun m => parseJsonStringList ⟨m⟩) = none := by
    rcases hg : (findMarkers "stopRevoke".data prompt.data).get? 1 with _ | m
    · rfl
    · simp only [Option.some_bind]
      exact findMarkers_parse_none _ _ m (List.get?_mem hg)
  rw [hset, hrevoke]
  simp

/-- C3: the claim says the list carried by the second `stopSet` occurrence
is added to the final stop array.  The code does select the second match
(`nth(1)`), but then JSON-parses the FULL match text (`Match::as_str`, not
the capture group), which always fails, so nothing is ever added: on a
prompt with `stopSet` markers naming `"Foo"` then `"Bar"`, the final stop
list is just the two defaults — while the bracketed capture alone would
have parsed fine. -/
theorem C3_stop_set_never_applied :
    (findMarkers "stopSet".data promptTwoStopSets.data).get? 1 =
      some "<|stopSet [\"Bar\"]|>".data ∧
    parseJsonStringList "<|stopSet [\"Bar\"]|>" = none ∧
    parseJsonStringList "[\"Bar\"]" = some ["Bar"] ∧
    stopSequences promptTwoStopSets none = ["\n\nHuman:", "\n\nAssistant:"] := by
  decide

/-! ## Claim C10 : request sanitization -/

/-- C10: `sanitize_client_request` changes nothing but the temperature,
which, when present, is replaced by its clamp into `[0.1, 1.0]`. -/
theorem C10_sanitize_frame (p : ClientRequestInfo) :
    (sanitize_client_request p).messages = p.messages ∧
    (sanitize_client_request p).model = p.model ∧
    (sanitize_client_request p).stream = p.stream ∧
    (sanitize_client_request p).max_tokens = p.max_tokens ∧
    (sanitize_client_request p).stop = p.stop ∧
    (sanitize_client_request p).top_p = p.top_p ∧
    (sanitize_client_request p).top_k = p.top_k ∧
    (sanitize_client_request p).temperature = p.temperature.map clampTemp ∧
    ∀ t, p.temperature = some t →
      (sanitize_client_request p).temperature = some (clampTemp t) ∧
      1/10 ≤ clampTemp t ∧ clampTemp t ≤ 1 := by
  refine ⟨rfl, rfl, rfl, rfl, rfl, rfl, rfl, rfl, ?_⟩
  intro t ht
  refine ⟨by simp [sanitize_client_request, ht], ?_, ?_⟩
  · unfold clampTemp
    split_ifs with h1 h2
    · norm_num
    · norm_num
    · exact le_of_not_lt h1
  · unfold clampTemp
    split_ifs with h1 h2
    · norm_num
    · norm_num
    · exact le_of_not_lt h2

/-- Witness for C10 at a concrete request with temperature 5 (clamped to
1). -/
theorem C10_witness :
    sanitizeReq.temperature = some 5 ∧
    (sanitize_client_request sanitizeReq).temperature = some (clampTemp 5) ∧
    1/10 ≤ clampTemp 5 ∧ clampTemp 5 ≤ 1 := by
  refine ⟨rfl, ?_⟩
  exact (C10_sanitize_frame sanitizeReq).2.2.2.2.2.2.2.2 5 rfl

/-! ## Claim C4 : the renewal decider -/

theorem obBool_inj {o1 o2 : Option Bool} (h : obBool o1 = obBool o2) : o1 = o2 := by
  cases o1 <;> cases o2 <;> simp_all [obBool]

theorem obStr_inj {o1 o2 : Option String} (h : obStr o1 = obStr o2) : o1 = o2 := by
  cases o1 <;> cases o2 <;> simp_all [obStr]

/-- The lexicographic sort key determines the message: it collects every
field. -/
theorem key_inj {a b : Message} (h : Message.key a = Message.key b) : a = b := by
  cases a
  cases b
  simp only [Message.key, toLex_inj, Prod.mk.injEq] at h
  obtain ⟨h1, h2, h3, h4, h5, h6, h7, h8, h9, h10, h11⟩ := h
  simp only [Message.mk.injEq]
  exact ⟨h1, h2, obBool_inj h3, obStr_inj h4, obBool_inj h5, obBool_inj h6,
    obBool_inj h7, obBool_inj h8, obBool_inj h9, obBool_inj h10, obBool_inj h11⟩

theorem msgLE_total (a b : Message) : msgLE a b || msgLE b a := by
  simp only [msgLE, Bool.or_eq_true, decide_eq_true_eq]
  exact le_total _ _

theorem msgLE_trans {a b c : Message} (h1 : msgLE a b = true) (h2 : msgLE b c = true) :
    msgLE a c = true := by
  simp only [msgLE, decide_eq_true_eq] at h1 h2 ⊢
  exact le_trans h1 h2

theorem msgLE_antisymm {a b : Message} (h1 : msgLE a b = true) (h2 : msgLE b a = true) :
    a = b := by
  simp only [msgLE, decide_eq_true_eq] at h1 h2
  exact key_inj (le_antisymm h1 h2)

/-- Sorting by the derived order is canonical: permutation-equal lists sort
to the same list. -/
theorem sortMessages_congr {a b : List Message} (h : a.Perm b) :
    sortMessages a = sortMessages b := by
  haveI : IsAntisymm Message (fun x y => msgLE x y = true) := ⟨fun _ _ => msgLE_antisymm⟩
  apply List.eq_of_perm_of_sorted (r := fun x y => msgLE x y = true)
  · exact (List.mergeSort_perm a msgLE).trans (h.trans (List.mergeSort_perm b msgLE).symm)
  · exact @List.sorted_mergeSort Message msgLE (fun x y z hxy hyz => msgLE_trans hxy hyz)
      (fun x y => msgLE_total x y) a
  · exact @List.sorted_mergeSort Message msgLE (fun x y z hxy hyz => msgLE_trans hxy hyz)
      (fun x y => msgLE_total x y) b

/-- C4: whenever the non-system turns of the current and previous message
lists are equal as multisets (order-independent), `same_prompts` is true
and the decider yields `should_renew = true`, for every combination of the
other decider inputs; in particular lists differing only in system turns
count as the same prompts. -/
theorem C4_same_prompts_should_renew (ra : Bool) (cu : Option String) (pi : Bool)
    (cur prev : List Message)
    (h : (cur.filter fun m => m.role != "system").Perm
         (prev.filter fun m => m.role != "system")) :
    same_prompts cur prev = true ∧ should_renew ra cu pi cur prev = true := by
  have hs : same_prompts cur prev = true := by
    unfold same_prompts
    simp only [decide_eq_true_eq]
    exact sortMessages_congr h
  refine ⟨hs, ?_⟩
  unfold should_renew
  cases ra <;> simp [hs]

/-- Witness for C4: the current list is one user turn, the previous list
adds a system turn in front of the same user turn. -/
theorem C4_witness :
    (deciderCur.filter fun m => m.role != "system").Perm
      (deciderPrev.filter fun m => m.role != "system") ∧
    same_prompts deciderCur deciderPrev = true ∧
    should_renew false (some "uuid") false deciderCur deciderPrev = true := by
  have hp : (deciderCur.filter fun m => m.role != "system") =
      (deciderPrev.filter fun m => m.role != "system") := by decide
  have hperm : (deciderCur.filter fun m => m.role != "system").Perm
      (deciderPrev.filter fun m => m.role != "system") := by
    rw [hp]
  exact ⟨hperm, C4_same_prompts_should_renew false (some "uuid") false _ _ hperm⟩

end Completion

/-! ## Claim C8 : padding generation -/

namespace Text

theorem wordsAux_nonws {tok : List Char} (h : ∀ c ∈ tok, c.isWhitespace = false) :
    ∀ r acc, wordsAux (tok ++ r) acc = wordsAux r (tok.reverse ++ acc) := by
  induction tok with
  | nil => intro r acc; simp
  | cons c t ih =>
      intro r acc
      have hc : c.isWhitespace = false := h c (List.mem_cons_self c t)
      rw [List.cons_append]
      show (if c.isWhitespace then flushAcc acc ++ wordsAux (t ++ r) []
            else wordsAux (t ++ r) (c :: acc)) = _
      rw [hc]
      simp only [Bool.false_eq_true, if_false]
      rw [ih (fun x hx => h x (List.mem_cons_of_mem c hx)) r (c :: acc)]
      simp [List.append_assoc]

theorem wordsAux_ws {c : Char} (hc : c.isWhitespace = true) (r acc : List Char) :
    wordsAux (c :: r) acc = flushAcc acc ++ wordsAux r [] := by
  show (if c.isWhitespace then flushAcc acc ++ wordsAux r [] else wordsAux r (c :: acc)) = _
  rw [hc]
  simp

theorem words_token_sep {tok : List Char} (hne : tok ≠ [])
    (hnw : ∀ c ∈ tok, c.isWhitespace = false) {sep : Char}
    (hsep : sep.isWhitespace = true) (r : List Char) :
    wordsAux (tok ++ sep :: r) [] = tok :: wordsAux r [] := by
  rw [wordsAux_nonws hnw (sep :: r) [], wordsAux_ws hsep]
  simp [flushAcc, hne]

theorem joinSep_space_words {slice : List String}
    (h : ∀ t ∈ slice, t.data ≠ [] ∧ ∀ c ∈ t.data, c.isWhitespace = false) (r : List Char) :
    wordsAux ((joinSep " " slice).data ++ '\n' :: r) [] =
      slice.map String.data ++ wordsAux r [] := by
  induction slice with
  | nil =>
      show wordsAux (("" : String).data ++ '\n' :: r) [] = [] ++ wordsAux r []
      rw [show ("" : String).data = [] from rfl, List.nil_append, List.nil_append,
        wordsAux_ws (by decide)]
      simp [flushAcc]
  | cons t ts ih =>
      cases ts with
      | nil =>
          obtain ⟨hne, hnw⟩ := h t (List.mem_cons_self t [])
          show wordsAux (t.data ++ '\n' :: r) [] = _
          rw [words_token_sep hne hnw (by decide) r]
          rfl
      | cons u us =>
          obtain ⟨hne, hnw⟩ := h t (List.mem_cons_self t (u :: us))
          show wordsAux ((t ++ " " ++ joinSep " " (u :: us)).data ++ '\n' :: r) [] = _
          rw [string_data_append, string_data_append,
            show (" " : String).data = [' '] from rfl]
          rw [List.append_assoc, List.append_assoc, List.singleton_append]
          rw [words_token_sep hne hnw (by decide)]
          rw [ih (fun x hx => h x (List.mem_cons_of_mem t hx))]
          rfl

/-- Unfolding equation for `padLoop`. -/
theorem padLoop_eq (tokens : List String) (rand : Nat → Nat × Nat × Nat)
    (n pushed : Nat) :
    padLoop tokens rand n pushed =
      if 4000 < pushed + (8 + (rand n).1 % 56) then
        joinSep " " ((tokens.drop ((rand n).2.1 % (tokens.length - (8 + (rand n).1 % 56)))).take
          (8 + (rand n).1 % 56)) ++ "\n" ++ (if (rand n).2.2 % 100 < 5 then "\n" else "")
      else
        (joinSep " " ((tokens.drop ((rand n).2.1 % (tokens.length - (8 + (rand n).1 % 56)))).take
          (8 + (rand n).1 % 56)) ++ "\n" ++ (if (rand n).2.2 % 100 < 5 then "\n" else "")) ++
        padLoop tokens rand (n + 1) (pushed + (8 + (rand n).1 % 56)) := by
  rw [padLoop]

/-- Loop invariant for `padLoop`: with enough fuel, the emitted text holds
more than `4000 - pushed` whitespace-delimited words, all drawn from the
corpus. -/
theorem padLoop_spec (tokens : List String) (rand : Nat → Nat × Nat × Nat)
    (h4096 : 4096 ≤ tokens.length)
    (hgood : ∀ t ∈ tokens, t.data ≠ [] ∧ ∀ c ∈ t.data, c.isWhitespace = false) :
    ∀ fuel n pushed, 4001 - pushed ≤ fuel → pushed ≤ 4000 →
      4000 < (wordsAux (padLoop tokens rand n pushed).data []).length + pushed ∧
      ∀ w ∈ wordsAux (padLoop tokens rand n pushed).data [], (⟨w⟩ : String) ∈ tokens := by
  intro fuel
  induction fuel with
  | zero =>
      intro n pushed h1 h2
      exact absurd h1 (by omega)
  | succ fuel ih =>
      intro n pushed hf hp
      have hL63 : (rand n).1 % 56 < 56 := Nat.mod_lt _ (by norm_num)
      have hS : (rand n).2.1 % (tokens.length - (8 + (rand n).1 % 56)) <
          tokens.length - (8 + (rand n).1 % 56) := Nat.mod_lt _ (by omega)
      have hlen : ((tokens.drop ((rand n).2.1 % (tokens.length - (8 + (rand n).1 % 56)))).take
          (8 + (rand n).1 % 56)).length = 8 + (rand n).1 % 56 := by
        simp only [List.length_take, List.length_drop]
        omega
      have hmem : ∀ w ∈ (tokens.drop ((rand n).2.1 %
            (tokens.length - (8 + (rand n).1 % 56)))).take (8 + (rand n).1 % 56),
          w ∈ tokens := fun w hw =>
        ((List.take_sublist _ _).trans (List.drop_sublist _ _)).subset hw
      have hchunk : ∀ r : List Char,
          wordsAux (((joinSep " " ((tokens.drop ((rand n).2.1 %
              (tokens.length - (8 + (rand n).1 % 56)))).take (8 + (rand n).1 % 56)) ++ "\n" ++
              (if (rand n).2.2 % 100 < 5 then "\n" else "")).data ++ r)) [] =
            ((tokens.drop ((rand n).2.1 % (tokens.length - (8 + (rand n).1 % 56)))).take
              (8 + (rand n).1 % 56)).map String.data ++ wordsAux r [] := by
        intro r
        by_cases h5 : (rand n).2.2 % 100 < 5
        · rw [if_pos h5, string_data_append, string_data_append,
            show ("\n" : String).data = ['\n'] from rfl]
          rw [List.append_assoc, List.append_assoc, List.singleton_append,
            List.singleton_append]
          rw [joinSep_space_words (fun t ht => hgood t (hmem t ht))]
          rw [wordsAux_ws (by decide)]
          simp [flushAcc]
        · rw [if_neg h5, string_data_append, string_data_append,
            show ("\n" : String).data = ['\n'] from rfl,
            show ("" : String).data = [] from rfl]
          rw [List.append_nil, List.append_assoc, List.singleton_append]
          rw [joinSep_space_words (fun t ht => hgood t (hmem t ht))]
      by_cases hstop : 4000 < pushed + (8 + (rand n).1 % 56)
      · rw [padLoop_eq, if_pos hstop]
        have h0 : ∀ s : String, s.data = s.data ++ [] := by simp
        constructor
        · rw [h0, hchunk []]
          show 4000 < (List.map String.data _ ++ flushAcc []).length + pushed
          rw [show flushAcc [] = [] from rfl, List.append_nil, List.length_map, hlen]
          omega
        · intro w hw
          rw [h0, hchunk []] at hw
          rw [show wordsAux ([] : List Char) [] = [] from rfl, List.append_nil] at hw
          obtain ⟨t, ht, hteq⟩ := List.mem_map.mp hw
          have : (⟨w⟩ : String) = t := by rw [← hteq]
          rw [this]
          exact hmem t ht
      · rw [padLoop_eq, if_neg hstop]
        rw [string_data_append, hchunk]
        obtain ⟨ihc, ihm⟩ := ih (n + 1) (pushed + (8 + (rand n).1 % 56))
          (by omega) (by omega)
        constructor
        · rw [List.length_append, List.length_map, hlen]
          omega
        · intro w hw
          rcases List.mem_append.mp hw with h | h
          · obtain ⟨t, ht, hteq⟩ := List.mem_map.mp h
            have : (⟨w⟩ : String) = t := by rw [← hteq]
            rw [this]
            exact hmem t ht
          · exact ihm w h

end Text

/-- C8: for every corpus of at least 4096 (non-empty, whitespace-free)
tokens and every random stream, `generate_padding` terminates with a
result (the assertion passes and the loop is well-founded), and the result
contains more than 4000 whitespace-delimited tokens, each drawn from the
corpus. -/
theorem C8_generate_padding (tokens : List String) (rand : Nat → Nat × Nat × Nat)
    (h4096 : 4096 ≤ tokens.length)
    (hgood : ∀ t ∈ tokens, t.data ≠ [] ∧ ∀ c ∈ t.data, c.isWhitespace = false) :
    ∃ s, Text.generate_padding tokens rand = some s ∧
      4000 < (Text.wordsOf s).length ∧ ∀ w ∈ Text.wordsOf s, w ∈ tokens := by
  refine ⟨Text.padLoop tokens rand 0 0, ?_, ?_, ?_⟩
  · unfold Text.generate_padding
    rw [if_pos h4096]
  · obtain ⟨hc, -⟩ := Text.padLoop_spec tokens rand h4096 hgood 4001 0 0
      (by omega) (by omega)
    unfold Text.wordsOf
    rw [List.length_map]
    omega
  · intro w hw
    obtain ⟨-, hm⟩ := Text.padLoop_spec tokens rand h4096 hgood 4001 0 0
      (by omega) (by omega)
    unfold Text.wordsOf at hw
    obtain ⟨l, hl, hleq⟩ := List.mem_map.mp hw
    rw [← hleq]
    exact hm l hl

/-- Witness for C8: the corpus of 4096 copies of `"a"` and the constant
random stream. -/
theorem C8_witness :
    (4096 ≤ (List.replicate 4096 "a").length ∧
      ∀ t ∈ List.replicate 4096 "a", t.data ≠ [] ∧
        ∀ c ∈ t.data, c.isWhitespace = false) ∧
    ∃ s, Text.generate_padding (List.replicate 4096 "a") (fun _ => (0, 0, 0)) = some s ∧
      4000 < (Text.wordsOf s).length ∧
      ∀ w ∈ Text.wordsOf s, w ∈ List.replicate 4096 "a" := by
  have h1 : 4096 ≤ (List.replicate 4096 "a").length := by
    rw [List.length_replicate]
  have h2 : ∀ t ∈ List.replicate 4096 "a", t.data ≠ [] ∧
      ∀ c ∈ t.data, c.isWhitespace = false := by
    intro t ht
    rw [List.eq_of_mem_replicate ht]
    exact ⟨by decide, by decide⟩
  exact ⟨⟨h1, h2⟩, C8_generate_padding (List.replicate 4096 "a") (fun _ => (0, 0, 0)) h1 h2⟩

end Clewdr
